import Mathlib

/-!
Verification of the SimpleEQ real-time pipeline against its specification.

The definitions below are a shallow embedding of the C++ source:
- the lock-free ring buffer `Fifo` (src/unnamed/part_001, lines 48-76),
  including the semantics of the `juce::AbstractFifo` bookkeeping object it
  delegates to (JUCE reserves one slot: `prepareToWrite` clamps the write
  count to `freeSpace - 1`, so a buffer of size 30 holds at most 29 items);
- the per-channel block accumulator `SingleChannelSampleFifo`
  (src/unnamed/part_001, lines 90-148);
- the cut-filter slope update `updateCutFilter` with its switch fallthrough
  (src/unnamed/part_001, lines 205-244);
- the coefficient replacement `updateCoefficients`
  (src/Source/PluginProcessor.cpp, lines 253-257), modelled with an explicit
  pointer heap because the claim is about reference versus value semantics;
- the response-curve magnitude loop of `ResponseCurveComponent::paint`
  (src/unnamed/part_000, lines 384-416);
- the dirty-flag protocol of `ResponseCurveComponent::timerCallback` and
  `parameterValueChanged` (src/unnamed/part_000, lines 257-261 and 314-335);
- the FFT frame production `FFTDataGenerator::produceFFTDataForRendering`
  (src/Source/PluginEditor.h, lines 29-58) with the rolling mono buffer of
  `PathProducer::process` (src/unnamed/part_000, lines 265-310);
- the spectrum path construction `AnalyserPathGenerator::generatePath`
  (src/Source/PluginEditor.h, lines 98-143).

Real-valued library callbacks (stage magnitude responses, the FFT transform,
log10, windowing tables) are passed in as function parameters; float samples
are modelled as rationals, and float non-finiteness where a claim depends on
it is modelled by an explicit tagged value type.
-/

namespace SimpleEQ

/-! ## juce::AbstractFifo (index bookkeeping used by Fifo)

Modelled from the JUCE implementation: `prepareToWrite` computes the free
space from the two cursors and clamps the requested count to
`freeSpace - 1`; `finishedWrite` advances `validEnd` with wraparound;
`prepareToRead` clamps to the number of ready items; `finishedRead`
advances `validStart` with wraparound. All cursor values stay in
`[0, bufferSize)`. -/

structure AbstractFifo where
  bufferSize : ℕ
  validStart : ℕ
  validEnd : ℕ
  deriving Repr, DecidableEq

namespace AbstractFifo

/-- `getNumReady`: number of items available for reading. -/
def getNumReady (f : AbstractFifo) : ℕ :=
  if f.validStart ≤ f.validEnd then f.validEnd - f.validStart
  else f.bufferSize - (f.validStart - f.validEnd)

/-- `prepareToWrite` specialised to a request of `numToWrite` items, returning
`(startIndex1, blockSize1, blockSize2)`.  The clamp to `freeSpace - 1` is the
JUCE behaviour that always leaves one slot unused. -/
def prepareToWrite (f : AbstractFifo) (numToWrite : ℕ) : ℕ × ℕ × ℕ :=
  let vs := f.validStart
  let ve := f.validEnd
  let freeSpace := if vs ≤ ve then f.bufferSize - (ve - vs) else vs - ve
  let n := min numToWrite (freeSpace - 1)
  if n = 0 then (0, 0, 0)
  else (ve, min (f.bufferSize - ve) n, n - min (f.bufferSize - ve) n)

/-- `finishedWrite`: advance the write cursor, wrapping once past the end. -/
def finishedWrite (f : AbstractFifo) (numWritten : ℕ) : AbstractFifo :=
  let newEnd := f.validEnd + numWritten
  { f with validEnd := if f.bufferSize ≤ newEnd then newEnd - f.bufferSize else newEnd }

/-- `prepareToRead` specialised to a request of `numWanted` items, returning
`(startIndex1, blockSize1, blockSize2)`. -/
def prepareToRead (f : AbstractFifo) (numWanted : ℕ) : ℕ × ℕ × ℕ :=
  let vs := f.validStart
  let ve := f.validEnd
  let numReady := if vs ≤ ve then ve - vs else f.bufferSize - (vs - ve)
  let n := min numWanted numReady
  if n = 0 then (0, 0, 0)
  else (vs, min (f.bufferSize - vs) n, n - min (f.bufferSize - vs) n)

/-- `finishedRead`: advance the read cursor, wrapping once past the end. -/
def finishedRead (f : AbstractFifo) (numRead : ℕ) : AbstractFifo :=
  let newStart := f.validStart + numRead
  { f with validStart := if f.bufferSize ≤ newStart then newStart - f.bufferSize else newStart }

end AbstractFifo

/-! ## The Fifo template (capacity 30)

`Fifo::push` asks the abstract fifo for one write slot, copies the item into
`buffers[startIndex1]` when a slot was granted, and the scoped write handle
then publishes `blockSize1 + blockSize2` written items.  `Fifo::pull` is the
symmetric read. -/

/-- `static constexpr int Capacity = 30;` of the Fifo template. -/
def fifoCapacity : ℕ := 30

structure Fifo (α : Type) where
  buffers : ℕ → α
  fifo : AbstractFifo

namespace Fifo

/-- Fresh Fifo: default-constructed slot array, `juce::AbstractFifo fifo{ Capacity }`.
The slot contents start as the given default element. -/
def init (d : α) : Fifo α :=
  { buffers := fun _ => d, fifo := ⟨fifoCapacity, 0, 0⟩ }

/-- `bool push(const T& t)`: write one item if a slot is free; the scoped
write always publishes the granted count on destruction. -/
def push (q : Fifo α) (t : α) : Fifo α × Bool :=
  let w := q.fifo.prepareToWrite 1
  let startIndex1 := w.1
  let blockSize1 := w.2.1
  let blockSize2 := w.2.2
  let bufs := if 0 < blockSize1 then Function.update q.buffers startIndex1 t else q.buffers
  (⟨bufs, q.fifo.finishedWrite (blockSize1 + blockSize2)⟩, decide (0 < blockSize1))

/-- `bool pull(T& t)`: read the oldest item if one is ready.  The out
parameter is modelled by the `Option` result (`none` when pull fails and the
caller buffer is left untouched). -/
def pull (q : Fifo α) : Fifo α × Option α :=
  let r := q.fifo.prepareToRead 1
  let startIndex1 := r.1
  let blockSize1 := r.2.1
  let blockSize2 := r.2.2
  if 0 < blockSize1 then
    (⟨q.buffers, q.fifo.finishedRead (blockSize1 + blockSize2)⟩, some (q.buffers startIndex1))
  else
    (⟨q.buffers, q.fifo.finishedRead (blockSize1 + blockSize2)⟩, none)

/-- `int getNumAvailableForReading() const`. -/
def getNumAvailableForReading (q : Fifo α) : ℕ :=
  q.fifo.getNumReady

/-- Sequence of push calls, collecting each push result in order. -/
def pushAll (q : Fifo α) : List α → Fifo α × List Bool
  | [] => (q, [])
  | x :: xs =>
    let p := q.push x
    let rest := pushAll p.1 xs
    (rest.1, p.2 :: rest.2)

/-- Sequence of `n` pull calls, collecting each pulled item in order. -/
def pullN (q : Fifo α) : ℕ → Fifo α × List (Option α)
  | 0 => (q, [])
  | n + 1 =>
    let p := q.pull
    let rest := pullN p.1 n
    (rest.1, p.2 :: rest.2)

end Fifo

/-! ## SingleChannelSampleFifo (src/unnamed/part_001, lines 90-148)

Accumulates samples one at a time into `bufferToFill`; when the write cursor
reaches the block size the filled block is pushed onto the inner `Fifo` and
the cursor restarts.  The audio buffer block type is modelled as a list of
rational samples. -/

structure SingleChannelSampleFifo where
  fifoIndex : ℕ
  bufferToFill : List ℚ
  audioBufferFifo : Fifo (List ℚ)

namespace SingleChannelSampleFifo

/-- `void prepare(int bufferSize)`: size and clear the accumulation block,
prepare the inner fifo (each slot becomes a cleared block) and reset the
write cursor. -/
def prepare (bufferSize : ℕ) : SingleChannelSampleFifo :=
  { fifoIndex := 0
    bufferToFill := List.replicate bufferSize 0
    audioBufferFifo := Fifo.init (List.replicate bufferSize 0) }

/-- `void pushNextSampleIntoFifo(float sample)`.  Returns the new state
together with whether the full block was pushed on this call and the index
used for the `setSample` write (both exposed for the invariant claims).
When the cursor has reached the block size the block is pushed (its success
ignored, as in the source) and the cursor restarts before the write. -/
def pushNextSampleIntoFifo (s : SingleChannelSampleFifo) (sample : ℚ) :
    SingleChannelSampleFifo × Bool × ℕ :=
  if s.fifoIndex = s.bufferToFill.length then
    let p := s.audioBufferFifo.push s.bufferToFill
    ({ fifoIndex := 0 + 1
       bufferToFill := s.bufferToFill.set 0 sample
       audioBufferFifo := p.1 }, true, 0)
  else
    ({ s with
       fifoIndex := s.fifoIndex + 1
       bufferToFill := s.bufferToFill.set s.fifoIndex sample }, false, s.fifoIndex)

/-- `void update(const BlockType& buffer)`: feed every sample of the incoming
buffer, one at a time. -/
def update (s : SingleChannelSampleFifo) (buffer : List ℚ) : SingleChannelSampleFifo :=
  buffer.foldl (fun st sample => (st.pushNextSampleIntoFifo sample).1) s

/-- `int getNumCompleteBuffersAvailable() const`. -/
def getNumCompleteBuffersAvailable (s : SingleChannelSampleFifo) : ℕ :=
  s.audioBufferFifo.getNumAvailableForReading

end SingleChannelSampleFifo

/-- Overwrite the entries of `c` from position `i` on with the entries of
`ys` (the effect of consecutive `setSample` writes). -/
def listOverwrite (c : List ℚ) (i : ℕ) : List ℚ → List ℚ
  | [] => c
  | y :: ys => listOverwrite (c.set i y) (i + 1) ys

/-- The `i`-th size-`B` block of a sample stream. -/
def chunk (xs : List ℚ) (B i : ℕ) : List ℚ :=
  (xs.drop (i * B)).take B

/-- The first `k` size-`B` blocks of a sample stream. -/
def chunkList (xs : List ℚ) (B k : ℕ) : List (List ℚ) :=
  (List.range k).map (chunk xs B)

/-! ## Cut filter slope update (src/unnamed/part_001, lines 205-244)

`CutFilter` is a chain of four IIR filter stages, each with a bypass flag and
a coefficients object.  Coefficient payloads are abstract (`α`): the
assignment in `update<Index>` goes through `updateCoefficients`, which copies
the replacement values into the stage object, so at the value level the stage
receives `cutCoefficients[Index]`. -/

/-- The `Slope` enum (`Slope_12 = 0 .. Slope_48 = 3`). -/
inductive Slope
  | Slope_12
  | Slope_24
  | Slope_36
  | Slope_48
  deriving Repr, DecidableEq

/-- Integer value of a `Slope` enum constant. -/
def Slope.toNat : Slope → ℕ
  | .Slope_12 => 0
  | .Slope_24 => 1
  | .Slope_36 => 2
  | .Slope_48 => 3

/-- One second-order filter stage: bypass flag plus coefficients. -/
structure FilterStage (α : Type) where
  bypassed : Bool
  coefficients : α
  deriving Repr, DecidableEq

/-- `using CutFilter = juce::dsp::ProcessorChain<Filter, Filter, Filter, Filter>`:
four stages indexed 0..3. -/
def CutFilter (α : Type) : Type := Fin 4 → FilterStage α

/-- `chain.template setBypassed<Index>(b)`. -/
def setBypassed (chain : CutFilter α) (i : Fin 4) (b : Bool) : CutFilter α :=
  fun j => if j = i then { chain j with bypassed := b } else chain j

/-- The helper `update<Index>(chain, coefficients)`: assign the indexed
coefficients to the indexed stage and un-bypass it. -/
def updateStage (i : Fin 4) (chain : CutFilter α) (coefficients : Fin 4 → α) : CutFilter α :=
  fun j => if j = i then { bypassed := false, coefficients := coefficients i } else chain j

/-- `updateCutFilter(chain, cutCoefficients, slope)`: bypass all four stages,
then the switch statement falls through from the selected slope down to
`Slope_12`, un-bypassing and assigning stages `slope.toNat, ..., 1, 0`. -/
def updateCutFilter (chain : CutFilter α) (cutCoefficients : Fin 4 → α) (slope : Slope) :
    CutFilter α :=
  let c := setBypassed (setBypassed (setBypassed (setBypassed chain 0 true) 1 true) 2 true) 3 true
  match slope with
  | .Slope_48 =>
    updateStage 0 (updateStage 1 (updateStage 2 (updateStage 3 c cutCoefficients)
      cutCoefficients) cutCoefficients) cutCoefficients
  | .Slope_36 =>
    updateStage 0 (updateStage 1 (updateStage 2 c cutCoefficients) cutCoefficients)
      cutCoefficients
  | .Slope_24 =>
    updateStage 0 (updateStage 1 c cutCoefficients) cutCoefficients
  | .Slope_12 =>
    updateStage 0 c cutCoefficients

/-! ## updateCoefficients (src/Source/PluginProcessor.cpp, lines 253-257)

`void updateCoefficients(Coefficients& old, Coefficients& replacements)
{ *old = *replacements; }`

`Coefficients` is a reference-counted pointer; the function dereferences
both pointers and copies the coefficient values into the object `old` points
to.  To talk about reference versus pointee we model an explicit heap of
coefficient-value arrays addressed by natural numbers.  A filter stage holds
an address (its `CoefficientsPtr` member). -/

/-- Heap of coefficient objects: address to coefficient values. -/
def CoeffHeap : Type := ℕ → List ℚ

/-- A holder of a `Coefficients` reference (a filter stage). -/
structure CoeffRef where
  ptr : ℕ
  deriving Repr, DecidableEq

/-- `updateCoefficients(old, replacements)`: the body `*old = *replacements`
writes the values stored at `replacements` into the object at `old.ptr`.
The reference `old` itself is never reassigned.  Returns the new heap and
the (unchanged) reference. -/
def updateCoefficients (heap : CoeffHeap) (old : CoeffRef) (replacements : ℕ) :
    CoeffHeap × CoeffRef :=
  (Function.update heap old.ptr (heap replacements), old)

/-! ## Response-curve magnitudes (src/unnamed/part_000, lines 384-416)

The paint loop walks `w` pixels; for each pixel it starts from gain 1 and
multiplies in the magnitude response of every stage whose bypass flag is
clear, in the order peak, low-cut 0..3, high-cut 0..3, then converts the
product to decibels.  The per-stage magnitude query
(`coefficients->getMagnitudeForFrequency`) and the decibel conversion and
the pixel-to-frequency mapping are library calls, passed in as functions. -/

/-- The display mono chain as used by `paint`: the peak slot bypass is read
from the chain (`monoChain.isBypassed<Peak>()`), the cut stages carry their
own flags. -/
structure DisplayChain (α : Type) where
  lowcut : CutFilter α
  peakBypassed : Bool
  peak : α
  highcut : CutFilter α

/-- The magnitude product computed by the body of the pixel loop. -/
def paintMagnitude (resp : α → ℚ → ℚ) (chain : DisplayChain α) (freq : ℚ) : ℚ :=
  let mag : ℚ := 1
  let mag := if !chain.peakBypassed then mag * resp chain.peak freq else mag
  let mag := if !(chain.lowcut 0).bypassed then mag * resp (chain.lowcut 0).coefficients freq else mag
  let mag := if !(chain.lowcut 1).bypassed then mag * resp (chain.lowcut 1).coefficients freq else mag
  let mag := if !(chain.lowcut 2).bypassed then mag * resp (chain.lowcut 2).coefficients freq else mag
  let mag := if !(chain.lowcut 3).bypassed then mag * resp (chain.lowcut 3).coefficients freq else mag
  let mag := if !(chain.highcut 0).bypassed then mag * resp (chain.highcut 0).coefficients freq else mag
  let mag := if !(chain.highcut 1).bypassed then mag * resp (chain.highcut 1).coefficients freq else mag
  let mag := if !(chain.highcut 2).bypassed then mag * resp (chain.highcut 2).coefficients freq else mag
  let mag := if !(chain.highcut 3).bypassed then mag * resp (chain.highcut 3).coefficients freq else mag
  mag

/-- The `mags` vector of the paint loop: one decibel value per pixel,
`mags[i] = Decibels::gainToDecibels(mag at freq(i))`. -/
def paintMags (toDb : ℚ → ℚ) (resp : α → ℚ → ℚ) (chain : DisplayChain α)
    (freqOf : ℕ → ℚ) (w : ℕ) : List ℚ :=
  (List.range w).map (fun i => toDb (paintMagnitude resp chain (freqOf i)))

/-- All nine stages of the display chain in processing order (peak first, as
multiplied in the source), each as bypass flag plus coefficients. -/
def stageList (chain : DisplayChain α) : List (FilterStage α) :=
  ⟨chain.peakBypassed, chain.peak⟩ ::
    (chain.lowcut 0) :: (chain.lowcut 1) :: (chain.lowcut 2) :: (chain.lowcut 3) ::
    (chain.highcut 0) :: (chain.highcut 1) :: (chain.highcut 2) :: [chain.highcut 3]

/-- Specification-side value: the magnitude responses of exactly the
non-bypassed stages at a frequency. -/
def activeStageResponses (resp : α → ℚ → ℚ) (chain : DisplayChain α) (freq : ℚ) : List ℚ :=
  ((stageList chain).filter (fun s => !s.bypassed)).map (fun s => resp s.coefficients freq)

/-! ## Parameters-changed flag protocol (src/unnamed/part_000, lines 257-261
and 314-335)

`parameterValueChanged` sets the atomic flag; `timerCallback` runs
`parametersChanged.compareAndSetBool(false, true)` and refreshes the display
chain exactly when the compare-and-set fired. -/

/-- The two events acting on the `parametersChanged` flag. -/
inductive RCEvent
  | notifyChange
  | timerTick
  deriving Repr, DecidableEq

/-- One event step: returns the new flag value and whether this event ran
`updateChain` (only a timer tick whose compare-and-set observed `true`). -/
def flagStep (flag : Bool) : RCEvent → Bool × Bool
  | .notifyChange => (true, false)
  | .timerTick => if flag then (false, true) else (flag, false)

/-- Run a sequence of events, collecting for each event whether it refreshed
the display chain. -/
def flagRun (flag : Bool) : List RCEvent → Bool × List Bool
  | [] => (flag, [])
  | e :: es =>
    let p := flagStep flag e
    let rest := flagRun p.1 es
    (rest.1, p.2 :: rest.2)

/-! ## FFT data generation (src/Source/PluginEditor.h, lines 29-58, and the
rolling mono buffer of src/unnamed/part_000, lines 265-310)

`produceFFTDataForRendering` copies `fftSize` samples, multiplies by the
window table, runs the magnitude-only transform, divides each of the
`fftSize / 2` bins by `numBins` and converts each to decibels with floor
`negativeInfinity`.  The window table, the transform and `log10` are library
functions, passed as parameters; the transform consumes the windowed data as
a function from index to sample. -/

/-- `juce::Decibels::gainToDecibels(gain, minusInfinityDb)`:
`gain > 0 ? jmax(minusInfinityDb, log10(gain) * 20) : minusInfinityDb`. -/
def gainToDecibels (log10 : ℚ → ℚ) (gain minusInfinityDb : ℚ) : ℚ :=
  if 0 < gain then max minusInfinityDb (log10 gain * 20) else minusInfinityDb

/-- The decibel frame produced by `produceFFTDataForRendering` (its first
`fftSize / 2` entries, the spectrum bins). -/
def produceFFTDataForRendering (fftMag : (ℕ → ℚ) → ℕ → ℚ) (window : ℕ → ℚ)
    (log10 : ℚ → ℚ) (fftSize : ℕ) (audioData : List ℚ) (negativeInfinity : ℚ) : List ℚ :=
  let fftData : ℕ → ℚ := fun i => audioData.getD i 0 * window i
  let numBins := fftSize / 2
  (List.range numBins).map
    (fun i => gainToDecibels log10 (fftMag fftData i / (numBins : ℚ)) negativeInfinity)

/-- One iteration of the rolling mono buffer of `PathProducer::process`:
shift left by the incoming block length and append the block. -/
def monoShift (monoBuffer block : List ℚ) : List ℚ :=
  monoBuffer.drop block.length ++ block

/-- Feeding `k` successive blocks into the rolling mono buffer. -/
def monoShiftIter (block : List ℚ) : ℕ → List ℚ → List ℚ
  | 0, mono => mono
  | k + 1, mono => monoShiftIter block k (monoShift mono block)

/-! ## Analyser path generation (src/Source/PluginEditor.h, lines 98-143)

Float values that may be NaN or infinite are modelled by a tagged type.  The
`map` lambda is `jmap(v, negativeInfinity, 0, bottom, top)`; a non-finite
input maps to a non-finite output, and a zero-width source range produces a
non-finite value (float division by zero).  `generatePath` starts the
subpath at the mapped first bin unconditionally (the source only asserts
finiteness there), then walks bins 1, 3, 5, ... below `numBins`, adding a
point only when the mapped value is finite.  The x coordinate of a loop
point comes from the log-frequency mapping, passed in as a function. -/

/-- A float sample: a finite rational or a non-finite value (NaN/Inf). -/
inductive FVal
  | fin (v : ℚ)
  | nonfinite
  deriving Repr, DecidableEq

/-- Finiteness test (`!std::isnan(y) && !std::isinf(y)`). -/
def FVal.isFinite : FVal → Bool
  | .fin _ => true
  | .nonfinite => false

/-- `juce::jmap(v, sourceMin, sourceMax, targetMin, targetMax)` on possibly
non-finite inputs. -/
def jmapF (v : FVal) (sourceMin sourceMax targetMin targetMax : ℚ) : FVal :=
  match v with
  | .fin x =>
    if sourceMax - sourceMin = 0 then .nonfinite
    else .fin (targetMin + (targetMax - targetMin) * (x - sourceMin) / (sourceMax - sourceMin))
  | .nonfinite => .nonfinite

/-- The path built by `AnalyserPathGenerator::generatePath`, as the list of
its points (x coordinate, mapped y value).  The first point is added by
`startNewSubPath(0, map(renderData[0]))` with no finiteness guard; each loop
point is guarded by the finiteness test. -/
def generatePath (binX : ℕ → ℚ) (renderData : List FVal) (fftSize : ℕ)
    (bottom top negativeInfinity : ℚ) : List (ℚ × FVal) :=
  let numBins := fftSize / 2
  let mapv := fun v => jmapF v negativeInfinity 0 bottom top
  let y0 := mapv (renderData.getD 0 .nonfinite)
  (0, y0) ::
    (List.range' 1 (numBins / 2) 2).filterMap
      (fun binNum =>
        let y := mapv (renderData.getD binNum .nonfinite)
        if y.isFinite then some (binX binNum, y) else none)

/-!
# Theorems

Helper lemmas first, then one theorem per claim (with witnesses and
counterexamples where required).
-/

namespace Fifo

/-- A push into a fifo whose cursors are `(0, k)` with `k ≤ 28` succeeds,
stores the item at slot `k` and advances the write cursor. -/
theorem push_mk_succ (bufs : ℕ → α) (k : ℕ) (t : α) (hk : k ≤ 28) :
    Fifo.push ⟨bufs, ⟨30, 0, k⟩⟩ t = (⟨Function.update bufs k t, ⟨30, 0, k + 1⟩⟩, true) := by
  have h1 : min 1 (30 - k - 1) = 1 := by omega
  have h2 : min (30 - k) 1 = 1 := by omega
  have h3 : ¬ (30 ≤ k + 1) := by omega
  simp [Fifo.push, AbstractFifo.prepareToWrite, AbstractFifo.finishedWrite, h1, h2, h3]

/-- A push into a fifo whose cursors are `(0, 29)` fails and leaves the state
unchanged: the 30-slot buffer holds at most 29 items. -/
theorem push_mk_full (bufs : ℕ → α) (t : α) :
    Fifo.push ⟨bufs, ⟨30, 0, 29⟩⟩ t = (⟨bufs, ⟨30, 0, 29⟩⟩, false) := by
  simp [Fifo.push, AbstractFifo.prepareToWrite, AbstractFifo.finishedWrite]

/-- A pull from a non-empty fifo with cursors `(vs, ve)`, `vs < ve ≤ 29`,
returns slot `vs` and advances the read cursor. -/
theorem pull_mk (bufs : ℕ → α) (vs ve : ℕ) (hlt : vs < ve) (hve : ve ≤ 29) :
    Fifo.pull ⟨bufs, ⟨30, vs, ve⟩⟩ = (⟨bufs, ⟨30, vs + 1, ve⟩⟩, some (bufs vs)) := by
  have h0 : vs ≤ ve := le_of_lt hlt
  have h1 : min 1 (ve - vs) = 1 := by omega
  have h2 : min (30 - vs) 1 = 1 := by omega
  have h3 : ¬ (30 ≤ vs + 1) := by omega
  have h4 : ¬ (ve - vs = 0) := by omega
  simp [Fifo.pull, AbstractFifo.prepareToRead, AbstractFifo.finishedRead, h0, h1, h2, h3, h4]

/-- A pull from an empty fifo (`vs = ve ≤ 29`) fails and leaves the state
unchanged. -/
theorem pull_mk_empty (bufs : ℕ → α) (vs : ℕ) (hvs : vs ≤ 29) :
    Fifo.pull ⟨bufs, ⟨30, vs, vs⟩⟩ = (⟨bufs, ⟨30, vs, vs⟩⟩, none) := by
  have h3 : ¬ (30 ≤ vs) := by omega
  simp [Fifo.pull, AbstractFifo.prepareToRead, AbstractFifo.finishedRead, h3]

/-- Pushing a list of at most `29 - k` items onto a fifo with cursors `(0, k)`
succeeds item by item, filling consecutive slots from `k` on. -/
theorem pushAll_ok (xs : List α) : ∀ (bufs : ℕ → α) (k : ℕ), k + xs.length ≤ 29 →
    ((Fifo.pushAll ⟨bufs, ⟨30, 0, k⟩⟩ xs).2 = List.replicate xs.length true) ∧
    ((Fifo.pushAll ⟨bufs, ⟨30, 0, k⟩⟩ xs).1.fifo = ⟨30, 0, k + xs.length⟩) ∧
    (∀ i, i < k → (Fifo.pushAll ⟨bufs, ⟨30, 0, k⟩⟩ xs).1.buffers i = bufs i) ∧
    (∀ j, (hj : j < xs.length) → (Fifo.pushAll ⟨bufs, ⟨30, 0, k⟩⟩ xs).1.buffers (k + j) = xs[j]) := by
  induction xs with
  | nil =>
    intro bufs k hk
    refine ⟨rfl, by simp [Fifo.pushAll], fun i _ => rfl, fun j hj => by simp at hj⟩
  | cons x xs ih =>
    intro bufs k hk
    have hk28 : k ≤ 28 := by simp at hk; omega
    have hstep := push_mk_succ bufs k x hk28
    have hrec := ih (Function.update bufs k x) (k + 1) (by simp at hk ⊢; omega)
    constructor
    · simp only [Fifo.pushAll, hstep]
      simp [hrec.1, List.replicate_succ]
    constructor
    · simp only [Fifo.pushAll, hstep]
      rw [hrec.2.1]
      simp
      omega
    constructor
    · intro i hi
      simp only [Fifo.pushAll, hstep]
      rw [hrec.2.2.1 i (by omega)]
      exact Function.update_noteq (show i ≠ k by omega) x bufs
    · intro j hj
      simp only [Fifo.pushAll, hstep]
      match j with
      | 0 =>
        rw [show k + 0 = k by omega, hrec.2.2.1 k (by omega)]
        simp
      | j + 1 =>
        rw [show k + (j + 1) = (k + 1) + j by omega,
            hrec.2.2.2 j (by simpa using hj)]
        simp

/-- Pushing anything onto a full fifo (cursors `(0, 29)`) fails for every item
and leaves the state unchanged. -/
theorem pushAll_full (ys : List α) : ∀ (bufs : ℕ → α),
    Fifo.pushAll ⟨bufs, ⟨30, 0, 29⟩⟩ ys = (⟨bufs, ⟨30, 0, 29⟩⟩, List.replicate ys.length false) := by
  induction ys with
  | nil => intro bufs; rfl
  | cons y ys ih =>
    intro bufs
    simp only [Fifo.pushAll, push_mk_full, ih, List.length_cons, List.replicate_succ]

/-- Pulling `n ≤ ve - vs` items from a fifo with cursors `(vs, ve)`, `ve ≤ 29`,
returns slots `vs, vs+1, ...` in order and advances the read cursor by `n`. -/
theorem pullN_ok (n : ℕ) : ∀ (bufs : ℕ → α) (vs ve : ℕ), vs + n ≤ ve → ve ≤ 29 →
    ((Fifo.pullN ⟨bufs, ⟨30, vs, ve⟩⟩ n).2.length = n) ∧
    ((Fifo.pullN ⟨bufs, ⟨30, vs, ve⟩⟩ n).1 = ⟨bufs, ⟨30, vs + n, ve⟩⟩) ∧
    (∀ j, j < n → (Fifo.pullN ⟨bufs, ⟨30, vs, ve⟩⟩ n).2.getD j none = some (bufs (vs + j))) := by
  induction n with
  | zero =>
    intro bufs vs ve hn hve
    exact ⟨rfl, by simp [Fifo.pullN], fun j hj => by omega⟩
  | succ n ih =>
    intro bufs vs ve hn hve
    have hlt : vs < ve := by omega
    have hstep := pull_mk bufs vs ve hlt hve
    have hrec := ih bufs (vs + 1) ve (by omega) hve
    refine ⟨?_, ?_, ?_⟩
    · simp only [Fifo.pullN, hstep]
      simp [hrec.1]
    · simp only [Fifo.pullN, hstep]
      rw [hrec.2.1, show vs + 1 + n = vs + (n + 1) by omega]
    · intro j hj
      simp only [Fifo.pullN, hstep]
      match j with
      | 0 => simp
      | j + 1 =>
        rw [List.getD_cons_succ, hrec.2.2 j (by omega),
            show vs + 1 + j = vs + (j + 1) by omega]

/-- Pull calls decompose: pulling `m + n` times is pulling `m` then `n` times,
with the pulled items concatenated. -/
theorem pullN_add (m : ℕ) : ∀ (q : Fifo α) (n : ℕ),
    Fifo.pullN q (m + n) =
      ((Fifo.pullN (Fifo.pullN q m).1 n).1,
        (Fifo.pullN q m).2 ++ (Fifo.pullN (Fifo.pullN q m).1 n).2) := by
  induction m with
  | zero => intro q n; simp [Fifo.pullN]
  | succ m ih =>
    intro q n
    have h : m + 1 + n = (m + n) + 1 := by omega
    rw [h]
    simp only [Fifo.pullN, ih (q.pull).1 n, List.cons_append]

/-- Push calls decompose: pushing `as ++ bs` is pushing `as` then `bs`, with
the push results concatenated. -/
theorem pushAll_append (as : List α) : ∀ (q : Fifo α) (bs : List α),
    Fifo.pushAll q (as ++ bs) =
      ((Fifo.pushAll (Fifo.pushAll q as).1 bs).1,
        (Fifo.pushAll q as).2 ++ (Fifo.pushAll (Fifo.pushAll q as).1 bs).2) := by
  induction as with
  | nil => intro q bs; simp [Fifo.pushAll]
  | cons a as ih =>
    intro q bs
    simp only [List.cons_append, Fifo.pushAll, List.append_eq, ih (q.push a).1 bs]

end Fifo

/-- Overwriting with `[]` is the identity; fully covering the suffix of a
list from position `i` replaces everything from `i` on. -/
theorem listOverwrite_full (ys : List ℚ) : ∀ (i : ℕ) (c : List ℚ),
    i + ys.length = c.length → listOverwrite c i ys = c.take i ++ ys := by
  induction ys with
  | nil =>
    intro i c hi
    simp only [List.length_nil, Nat.add_zero] at hi
    simp [listOverwrite, hi, List.take_of_length_le]
  | cons y ys ih =>
    intro i c hi
    have hlt : i < c.length := by simp at hi; omega
    rw [show listOverwrite c i (y :: ys) = listOverwrite (c.set i y) (i + 1) ys from rfl,
      ih (i + 1) (c.set i y) (by simp at hi ⊢; omega)]
    rw [List.set_eq_take_cons_drop y hlt]
    rw [List.take_append_eq_append_take]
    have h1 : (c.take i).length = i := by rw [List.length_take]; omega
    rw [List.take_of_length_le (by omega), h1]
    simp

namespace SingleChannelSampleFifo

/-- One accumulation step below capacity: the sample is written at the write
cursor and the cursor advances; nothing is pushed. -/
theorem pushNext_fill (s : SingleChannelSampleFifo) (sample : ℚ)
    (h : s.fifoIndex ≠ s.bufferToFill.length) :
    s.pushNextSampleIntoFifo sample =
      ({ s with
          fifoIndex := s.fifoIndex + 1
          bufferToFill := s.bufferToFill.set s.fifoIndex sample }, false, s.fifoIndex) := by
  simp [pushNextSampleIntoFifo, h]

/-- Feeding samples that fit in the remaining space of the accumulation block
writes them in place after the cursor and advances the cursor; the inner fifo
is untouched. -/
theorem update_fill (ys : List ℚ) : ∀ (s : SingleChannelSampleFifo),
    s.fifoIndex + ys.length ≤ s.bufferToFill.length →
    SingleChannelSampleFifo.update s ys =
      { fifoIndex := s.fifoIndex + ys.length
        bufferToFill := listOverwrite s.bufferToFill s.fifoIndex ys
        audioBufferFifo := s.audioBufferFifo } := by
  induction ys with
  | nil =>
    intro s h
    simp [update, listOverwrite]
  | cons y ys ih =>
    intro s h
    have hne : s.fifoIndex ≠ s.bufferToFill.length := by simp at h; omega
    have hstep := pushNext_fill s y hne
    show SingleChannelSampleFifo.update (s.pushNextSampleIntoFifo y).1 ys = _
    rw [hstep]
    rw [ih _ (by simp at h ⊢; omega)]
    simp only [listOverwrite]
    congr 1
    simp
    omega

/-- Feeding a full block of samples to a state whose accumulation block is
exactly full pushes the old block onto the inner fifo and replaces the
accumulation block with the new samples. -/
theorem update_rollover (ys : List ℚ) (s : SingleChannelSampleFifo)
    (hfull : s.fifoIndex = s.bufferToFill.length)
    (hlen : ys.length = s.bufferToFill.length) (hB : 1 ≤ s.bufferToFill.length) :
    SingleChannelSampleFifo.update s ys =
      { fifoIndex := ys.length
        bufferToFill := ys
        audioBufferFifo := (s.audioBufferFifo.push s.bufferToFill).1 } := by
  cases ys with
  | nil => simp at hlen; omega
  | cons y ys =>
    have hstep : s.pushNextSampleIntoFifo y =
        ({ fifoIndex := 0 + 1
           bufferToFill := s.bufferToFill.set 0 y
           audioBufferFifo := (s.audioBufferFifo.push s.bufferToFill).1 }, true, 0) := by
      simp [pushNextSampleIntoFifo, hfull]
    show SingleChannelSampleFifo.update (s.pushNextSampleIntoFifo y).1 ys = _
    rw [hstep]
    rw [update_fill ys _ (by simp at hlen ⊢; omega)]
    have htake : (s.bufferToFill.set 0 y).take 1 = [y] := by
      rcases hc : s.bufferToFill with _ | ⟨a, l⟩
      · rw [hc] at hB; simp at hB
      · simp
    rw [listOverwrite_full ys (0 + 1) _ (by simp at hlen ⊢; omega)]
    simp only [htake]
    simp at hlen ⊢
    omega

end SingleChannelSampleFifo

/-- A chunk of a prefix agrees with the chunk of the whole stream as long as
the chunk lies inside the prefix. -/
theorem chunk_take (xs : List ℚ) (B m i : ℕ) (h : (i + 1) * B ≤ m) :
    chunk (xs.take m) B i = chunk xs B i := by
  unfold chunk
  rw [List.drop_take, List.take_take]
  congr 1
  have e : i * B + B = (i + 1) * B := by ring
  omega

/-- The first `k` chunks of a stream depend only on its first `(k+1)·B`
samples. -/
theorem chunkList_take (xs : List ℚ) (B k : ℕ) :
    chunkList (xs.take ((k + 1) * B)) B k = chunkList xs B k := by
  unfold chunkList
  apply List.map_congr_left
  intro i hi
  rw [List.mem_range] at hi
  refine chunk_take xs B _ i ?_
  exact Nat.mul_le_mul_right B (by omega)

/-- The state of a sampler prepared with block size `B ≥ 1` after feeding
exactly `(k+1)·B` samples: the write cursor sits at `B`, the accumulation
block holds the last chunk (not yet pushed), and the inner fifo has received
exactly the first `k` chunks. -/
theorem update_chunks (B : ℕ) (hB : 1 ≤ B) : ∀ (k : ℕ) (xs : List ℚ),
    xs.length = (k + 1) * B →
    SingleChannelSampleFifo.update (SingleChannelSampleFifo.prepare B) xs =
      { fifoIndex := B
        bufferToFill := chunk xs B k
        audioBufferFifo :=
          (Fifo.pushAll (Fifo.init (List.replicate B 0)) (chunkList xs B k)).1 } := by
  intro k
  induction k with
  | zero =>
    intro xs hlen
    simp only [Nat.zero_add, Nat.one_mul] at hlen
    rw [SingleChannelSampleFifo.update_fill xs _ (by simp [SingleChannelSampleFifo.prepare]; omega)]
    simp only [SingleChannelSampleFifo.prepare]
    rw [listOverwrite_full xs 0 _ (by simp; omega)]
    simp [chunk, chunkList, Fifo.pushAll, List.take_of_length_le (le_of_eq hlen)]
    omega
  | succ k ih =>
    intro xs hlen
    have e0 : k * B + B = (k + 1) * B := by ring
    have e1 : (k + 1) * B + B = (k + 1 + 1) * B := by ring
    have hm : (k + 1) * B ≤ xs.length := by omega
    have hsplit : xs.take ((k + 1) * B) ++ xs.drop ((k + 1) * B) = xs :=
      List.take_append_drop _ xs
    have hupd : SingleChannelSampleFifo.update (SingleChannelSampleFifo.prepare B) xs
        = SingleChannelSampleFifo.update
            (SingleChannelSampleFifo.update (SingleChannelSampleFifo.prepare B)
              (xs.take ((k + 1) * B)))
            (xs.drop ((k + 1) * B)) := by
      conv_lhs => rw [← hsplit]
      exact List.foldl_append _ _ _ _
    rw [hupd, ih (xs.take ((k + 1) * B)) (by rw [List.length_take]; omega)]
    have hchunklen : (chunk (xs.take ((k + 1) * B)) B k).length = B := by
      rw [chunk_take xs B _ k (le_refl _)]
      unfold chunk
      rw [List.length_take, List.length_drop]
      omega
    have hdroplen : (xs.drop ((k + 1) * B)).length = B := by
      rw [List.length_drop]; omega
    rw [SingleChannelSampleFifo.update_rollover (xs.drop ((k + 1) * B)) _
      hchunklen.symm (hdroplen.trans hchunklen.symm)
      (by rw [show (chunk (xs.take ((k + 1) * B)) B k).length = B from hchunklen]; exact hB)]
    congr 1
    · unfold chunk
      rw [List.take_of_length_le (le_of_eq hdroplen)]
    · rw [chunk_take xs B _ k (le_refl _), chunkList_take]
      have hrangesucc : chunkList xs B (k + 1) = chunkList xs B k ++ [chunk xs B k] := by
        unfold chunkList
        rw [List.range_succ, List.map_append, List.map_singleton]
      rw [hrangesucc, Fifo.pushAll_append]
      simp [Fifo.pushAll]

/-- One accumulation step preserves the block length and keeps the cursor in
`[1, B]`. -/
theorem pushNext_preserves (s : SingleChannelSampleFifo) (sample : ℚ) (B : ℕ)
    (hB : 1 ≤ B) (h1 : s.bufferToFill.length = B) (h2 : s.fifoIndex ≤ B) :
    ((s.pushNextSampleIntoFifo sample).1.bufferToFill.length = B) ∧
    (1 ≤ (s.pushNextSampleIntoFifo sample).1.fifoIndex) ∧
    ((s.pushNextSampleIntoFifo sample).1.fifoIndex ≤ B) := by
  by_cases h : s.fifoIndex = s.bufferToFill.length
  · simp [SingleChannelSampleFifo.pushNextSampleIntoFifo, h, h1, hB]
  · have hne : s.fifoIndex ≠ B := by rw [← h1]; exact h
    simp [SingleChannelSampleFifo.pushNextSampleIntoFifo, h1, hne]
    omega

/-- Feeding any sample list preserves the block length and the cursor bound. -/
theorem update_cursor_le (xs : List ℚ) : ∀ (s : SingleChannelSampleFifo) (B : ℕ),
    1 ≤ B → s.bufferToFill.length = B → s.fifoIndex ≤ B →
    ((SingleChannelSampleFifo.update s xs).fifoIndex ≤ B) ∧
    ((SingleChannelSampleFifo.update s xs).bufferToFill.length = B) := by
  induction xs with
  | nil => intro s B hB h1 h2; exact ⟨h2, h1⟩
  | cons x xs ih =>
    intro s B hB h1 h2
    have hstep := pushNext_preserves s x B hB h1 h2
    exact ih (s.pushNextSampleIntoFifo x).1 B hB hstep.1 hstep.2.2

/-- Claim C3, counterexample to the original statement: with block size 1,
feeding exactly one sample leaves zero complete blocks available — the full
block is only pushed when the next sample arrives (the cursor sits at the
block size, the block filled but unpublished). -/
theorem claim3_counterexample :
    (SingleChannelSampleFifo.getNumCompleteBuffersAvailable
      (SingleChannelSampleFifo.update (SingleChannelSampleFifo.prepare 1) [(5 : ℚ)]) = 0) ∧
    ¬ (SingleChannelSampleFifo.getNumCompleteBuffersAvailable
      (SingleChannelSampleFifo.update (SingleChannelSampleFifo.prepare 1) [(5 : ℚ)]) = 1) ∧
    ((SingleChannelSampleFifo.update (SingleChannelSampleFifo.prepare 1) [(5 : ℚ)]).fifoIndex
      = 1) := by
  refine ⟨by decide, by decide, by decide⟩

/-- Claim C3 (amended): a prepared sampler with block size `B ≥ 1` that is
fed `(k+1)·B` samples one at a time (with `k ≤ 29`) has exactly `k` complete
blocks available — the final block sits filled but unpublished until one
more sample arrives — and the `i`-th pulled block contains samples
`i·B .. (i+1)·B - 1` of the input stream, in order. -/
theorem claim3_sampler_blocks_amended (B k : ℕ) (xs : List ℚ) (hB : 1 ≤ B)
    (hk : k ≤ 29) (hlen : xs.length = (k + 1) * B) :
    (SingleChannelSampleFifo.getNumCompleteBuffersAvailable
        (SingleChannelSampleFifo.update (SingleChannelSampleFifo.prepare B) xs) = k) ∧
    (∀ i, i < k →
      (Fifo.pullN
        (SingleChannelSampleFifo.update (SingleChannelSampleFifo.prepare B) xs).audioBufferFifo
        k).2.getD i none = some ((xs.drop (i * B)).take B)) := by
  rw [update_chunks B hB k xs hlen]
  have hcl : (chunkList xs B k).length = k := by
    unfold chunkList; rw [List.length_map, List.length_range]
  have hinit : Fifo.init (List.replicate B (0 : ℚ))
      = (⟨fun _ => List.replicate B 0, ⟨30, 0, 0⟩⟩ : Fifo (List ℚ)) := rfl
  rw [hinit]
  obtain ⟨_, hfifo, _, hslots⟩ :=
    Fifo.pushAll_ok (chunkList xs B k) (fun _ => List.replicate B (0 : ℚ)) 0 (by omega)
  simp only [Nat.zero_add, hcl] at hfifo hslots
  constructor
  · simp only [SingleChannelSampleFifo.getNumCompleteBuffersAvailable,
      Fifo.getNumAvailableForReading]
    rw [hfifo]
    simp [AbstractFifo.getNumReady]
  · intro i hi
    have heta : (Fifo.pushAll (⟨fun _ => List.replicate B 0, ⟨30, 0, 0⟩⟩ : Fifo (List ℚ))
        (chunkList xs B k)).1
        = ⟨(Fifo.pushAll (⟨fun _ => List.replicate B 0, ⟨30, 0, 0⟩⟩ : Fifo (List ℚ))
            (chunkList xs B k)).1.buffers, ⟨30, 0, k⟩⟩ := by
      rw [← hfifo]
    show (Fifo.pullN (Fifo.pushAll (⟨fun _ => List.replicate B 0, ⟨30, 0, 0⟩⟩ : Fifo (List ℚ))
        (chunkList xs B k)).1 k).2.getD i none = some ((xs.drop (i * B)).take B)
    rw [heta]
    obtain ⟨hplen, _, hpget⟩ := Fifo.pullN_ok k
      (Fifo.pushAll (⟨fun _ => List.replicate B 0, ⟨30, 0, 0⟩⟩ : Fifo (List ℚ))
        (chunkList xs B k)).1.buffers 0 k (by omega) (by omega)
    simp only [Nat.zero_add] at hpget
    rw [hpget i hi, hslots i (by omega)]
    congr 1
    have hch : ∀ (hib : i < (chunkList xs B k).length), (chunkList xs B k)[i] = chunk xs B i := by
      intro hib
      unfold chunkList at hib ⊢
      rw [List.getElem_map]
      congr 1
      exact List.getElem_range _ _
    rw [hch (by omega)]
    rfl

/-- Witness for claim C3: block size 2, three blocks worth of samples. -/
theorem claim3_sampler_blocks_witness :
    (SingleChannelSampleFifo.getNumCompleteBuffersAvailable
        (SingleChannelSampleFifo.update (SingleChannelSampleFifo.prepare 2)
          [(1 : ℚ), 2, 3, 4, 5, 6]) = 2) ∧
    ((Fifo.pullN
        (SingleChannelSampleFifo.update (SingleChannelSampleFifo.prepare 2)
          [(1 : ℚ), 2, 3, 4, 5, 6]).audioBufferFifo 2).2.getD 0 none
      = some [1, 2]) ∧
    ((Fifo.pullN
        (SingleChannelSampleFifo.update (SingleChannelSampleFifo.prepare 2)
          [(1 : ℚ), 2, 3, 4, 5, 6]).audioBufferFifo 2).2.getD 1 none
      = some [3, 4]) := by
  have h := claim3_sampler_blocks_amended 2 2 [(1 : ℚ), 2, 3, 4, 5, 6]
    (by norm_num) (by norm_num) (by norm_num)
  exact ⟨h.1, h.2 0 (by norm_num), h.2 1 (by norm_num)⟩

/-- Claim C10: for a sampler with block size `B ≥ 1` (the block length after
`prepare B`), the write cursor stays in `[0, B]` across any `update` call,
every `setSample` write lands strictly below `B`, the cursor is reset to zero
within a step exactly when that step pushes the completed block (a push
happens exactly when the cursor reached `B`), and `prepare` resets the cursor
to zero. -/
theorem claim10_sampler_cursor_invariants (s : SingleChannelSampleFifo) (B : ℕ)
    (hB : 1 ≤ B) (hlen : s.bufferToFill.length = B) (hinv : s.fifoIndex ≤ B) :
    (∀ sample : ℚ,
      ((s.pushNextSampleIntoFifo sample).2.2 < B) ∧
      (1 ≤ (s.pushNextSampleIntoFifo sample).1.fifoIndex) ∧
      ((s.pushNextSampleIntoFifo sample).1.fifoIndex ≤ B) ∧
      ((s.pushNextSampleIntoFifo sample).2.1 = true ↔ s.fifoIndex = B) ∧
      ((s.pushNextSampleIntoFifo sample).2.2 = 0 →
        (s.pushNextSampleIntoFifo sample).2.1 = true ∨ s.fifoIndex = 0)) ∧
    (∀ xs : List ℚ,
      ((SingleChannelSampleFifo.update s xs).fifoIndex ≤ B) ∧
      ((SingleChannelSampleFifo.update s xs).bufferToFill.length = B)) ∧
    ((SingleChannelSampleFifo.prepare B).fifoIndex = 0) := by
  refine ⟨?_, fun xs => update_cursor_le xs s B hB hlen hinv, rfl⟩
  intro sample
  by_cases h : s.fifoIndex = s.bufferToFill.length
  · have hfi : s.fifoIndex = B := by rw [h, hlen]
    have hB' : 0 < B := hB
    simp [SingleChannelSampleFifo.pushNextSampleIntoFifo, h, hfi, hB', hlen, hB]
  · have hne : s.fifoIndex ≠ B := by rw [← hlen]; exact h
    simp [SingleChannelSampleFifo.pushNextSampleIntoFifo, h, hne]
    omega

/-- Witness for claim C10: block size 2, cursor at 1, concrete sample and
stream. -/
theorem claim10_sampler_cursor_witness :
    (((SingleChannelSampleFifo.mk 1 [0, 0] (Fifo.init [])).pushNextSampleIntoFifo
        (7 : ℚ)).2.2 < 2) ∧
    ((SingleChannelSampleFifo.update (SingleChannelSampleFifo.mk 1 [0, 0] (Fifo.init []))
        [(1 : ℚ), 2, 3]).fifoIndex ≤ 2) ∧
    ((SingleChannelSampleFifo.prepare 2).fifoIndex = 0) := by
  have h := claim10_sampler_cursor_invariants
    (SingleChannelSampleFifo.mk 1 [0, 0] (Fifo.init [])) 2
    (by norm_num) (by norm_num) (by norm_num)
  exact ⟨(h.1 7).1, (h.2.1 [(1 : ℚ), 2, 3]).1, h.2.2⟩

/-- Claim C1: for every slope choice and any prior bypass/coefficient state
of the 4-stage cut filter chain, `updateCutFilter` un-bypasses exactly the
stages with index at most the slope value, assigning each its own index of
the coefficient array, and bypasses the remaining stages (whose coefficients
are left as they were). -/
theorem claim1_updateCutFilter_stages (chain : CutFilter α) (coeffs : Fin 4 → α)
    (slope : Slope) (i : Fin 4) :
    ((updateCutFilter chain coeffs slope) i).bypassed = decide (slope.toNat < i.val) ∧
    ((updateCutFilter chain coeffs slope) i).coefficients =
      (if i.val ≤ slope.toNat then coeffs i else (chain i).coefficients) := by
  cases slope <;> fin_cases i <;>
    simp [updateCutFilter, updateStage, setBypassed, Slope.toNat]

/-- Claim C2, counterexample to the original statement: with the fifo freshly
constructed, a sequence of 30 pushes does not all succeed — the JUCE
bookkeeping keeps one of the 30 slots free, so the 30th push returns false. -/
theorem claim2_counterexample :
    (Fifo.pushAll (Fifo.init (0 : ℕ)) (List.range 30)).2
      = List.replicate 29 true ++ [false] ∧
    (Fifo.pushAll (Fifo.init (0 : ℕ)) (List.range 30)).2
      ≠ List.replicate 30 true := by
  constructor <;> decide

/-- Claim C2 (amended): for `1 ≤ N ≤ 29`, starting from an empty Fifo,
`N` pushes all succeed and the following `N` pulls return exactly the pushed
items, unchanged, in first-in-first-out order. -/
theorem claim2_fifo_order_amended (xs : List ℚ) (h1 : 1 ≤ xs.length)
    (h2 : xs.length ≤ 29) :
    ((Fifo.pushAll (Fifo.init (0 : ℚ)) xs).2 = List.replicate xs.length true) ∧
    ((Fifo.pullN (Fifo.pushAll (Fifo.init (0 : ℚ)) xs).1 xs.length).2 = xs.map some) := by
  have hinit : Fifo.init (0 : ℚ) = (⟨fun _ => 0, ⟨30, 0, 0⟩⟩ : Fifo ℚ) := rfl
  rw [hinit]
  obtain ⟨hres, hfifo, _, hslots⟩ := Fifo.pushAll_ok xs (fun _ => (0 : ℚ)) 0 (by omega)
  simp only [Nat.zero_add] at hfifo hslots
  refine ⟨hres, ?_⟩
  have heta : (Fifo.pushAll (⟨fun _ => 0, ⟨30, 0, 0⟩⟩ : Fifo ℚ) xs).1
      = ⟨(Fifo.pushAll (⟨fun _ => 0, ⟨30, 0, 0⟩⟩ : Fifo ℚ) xs).1.buffers,
          ⟨30, 0, xs.length⟩⟩ := by
    rw [← hfifo]
  rw [heta]
  obtain ⟨hplen, _, hpget⟩ :=
    Fifo.pullN_ok xs.length
      (Fifo.pushAll (⟨fun _ => 0, ⟨30, 0, 0⟩⟩ : Fifo ℚ) xs).1.buffers
      0 xs.length (by omega) (by omega)
  simp only [Nat.zero_add] at hpget
  apply List.ext_getElem
  · rw [hplen]; simp
  · intro i hi1 hi2
    have hi : i < xs.length := by simpa using hi2
    have hg := hpget i hi
    rw [List.getD_eq_getElem _ _ (by rw [hplen]; exact hi)] at hg
    rw [hg, hslots i hi, List.getElem_map]

/-- Witness for claim C2: three concrete pushes and pulls. -/
theorem claim2_fifo_order_witness :
    ((Fifo.pushAll (Fifo.init (0 : ℚ)) [1, 2, 3]).2 = List.replicate 3 true) ∧
    ((Fifo.pullN (Fifo.pushAll (Fifo.init (0 : ℚ)) [1, 2, 3]).1 3).2
      = [some 1, some 2, some 3]) :=
  claim2_fifo_order_amended [1, 2, 3] (by norm_num) (by norm_num)

/-- Claim C4, counterexample to the original statement: `updateCoefficients`
does mutate the coefficient object the stage points to (here address 0
changes value from `[1]` to `[2]`), and the reference itself is not swapped
to the replacement address. -/
theorem claim4_counterexample :
    ((updateCoefficients (fun a => if a = 0 then [1] else [2]) ⟨0⟩ 1).1 0
      ≠ (fun a => if a = 0 then [(1 : ℚ)] else [2]) 0) ∧
    ((updateCoefficients (fun a => if a = 0 then [(1 : ℚ)] else [2]) ⟨0⟩ 1).2 = ⟨0⟩) := by
  constructor
  · simp [updateCoefficients]
  · rfl

/-- Claim C4 (amended): `updateCoefficients` copies the replacement values
into the object the stage reference points to — a value assignment observed
by every holder of that object, not a pointer swap — leaving the reference
itself and every other heap object unchanged. -/
theorem claim4_updateCoefficients_amended (heap : CoeffHeap) (old : CoeffRef) (repl : ℕ) :
    ((updateCoefficients heap old repl).1 old.ptr = heap repl) ∧
    ((updateCoefficients heap old repl).2 = old) ∧
    (∀ a, a ≠ old.ptr → (updateCoefficients heap old repl).1 a = heap a) := by
  refine ⟨by simp [updateCoefficients], rfl, fun a ha => ?_⟩
  simp [updateCoefficients, Function.update_noteq ha]

/-- Witness for claim C4 at a concrete heap, reference and replacement. -/
theorem claim4_updateCoefficients_witness :
    ((updateCoefficients (fun _ => ([] : List ℚ)) ⟨0⟩ 1).1 0 = []) ∧
    ((updateCoefficients (fun _ => ([] : List ℚ)) ⟨0⟩ 1).2 = ⟨0⟩) ∧
    ((updateCoefficients (fun _ => ([] : List ℚ)) ⟨0⟩ 1).1 5 = []) := by
  have h := claim4_updateCoefficients_amended (fun _ => ([] : List ℚ)) ⟨0⟩ 1
  exact ⟨h.1, h.2.1, h.2.2 5 (by norm_num)⟩

/-- Claim C5, counterexample to the original statement: pushing 31 items into
the freshly constructed Fifo does not give 30 successes — the 30th push
(index 29) already fails, because the JUCE bookkeeping holds at most 29
items. -/
theorem claim5_counterexample :
    (Fifo.pushAll (Fifo.init (0 : ℕ)) (List.range 31)).2.getD 29 false = false ∧
    (Fifo.pushAll (Fifo.init (0 : ℕ)) (List.range 31)).2.getD 30 false = false ∧
    (Fifo.pushAll (Fifo.init (0 : ℕ)) (List.range 31)).2.getD 28 false = true := by
  refine ⟨by decide, by decide, by decide⟩

/-- Claim C5 (amended): pushing 31 items into the empty Fifo succeeds for the
first 29 items and fails for the 30th and 31st; no stored item is corrupted,
and the subsequent pulls return the first 29 items in their original order,
the 30th pull failing. -/
theorem claim5_overflow_amended (xs : List ℚ) (h : xs.length = 31) :
    ((Fifo.pushAll (Fifo.init (0 : ℚ)) xs).2 = List.replicate 29 true ++ [false, false]) ∧
    ((Fifo.pullN (Fifo.pushAll (Fifo.init (0 : ℚ)) xs).1 30).2.length = 30) ∧
    (∀ j, (hj : j < 29) →
      (Fifo.pullN (Fifo.pushAll (Fifo.init (0 : ℚ)) xs).1 30).2.getD j none
        = some (xs.get ⟨j, by omega⟩)) ∧
    ((Fifo.pullN (Fifo.pushAll (Fifo.init (0 : ℚ)) xs).1 30).2.getD 29 none = none) := by
  have hinit : Fifo.init (0 : ℚ) = (⟨fun _ => 0, ⟨30, 0, 0⟩⟩ : Fifo ℚ) := rfl
  rw [hinit]
  have hsplit : xs.take 29 ++ xs.drop 29 = xs := List.take_append_drop 29 xs
  have hA : (xs.take 29).length = 29 := by simp [h]
  have hB : (xs.drop 29).length = 2 := by simp [h]
  obtain ⟨hres1, hfifo1, _, hslots1⟩ :=
    Fifo.pushAll_ok (xs.take 29) (fun _ => (0 : ℚ)) 0 (by omega)
  simp only [Nat.zero_add, hA] at hfifo1 hslots1 hres1
  obtain ⟨Pbuf, hPbuf⟩ :
      ∃ b, (Fifo.pushAll (⟨fun _ => 0, ⟨30, 0, 0⟩⟩ : Fifo ℚ) (xs.take 29)).1.buffers = b :=
    ⟨_, rfl⟩
  rw [hPbuf] at hslots1
  have heta : (Fifo.pushAll (⟨fun _ => 0, ⟨30, 0, 0⟩⟩ : Fifo ℚ) (xs.take 29)).1
      = ⟨Pbuf, ⟨30, 0, 29⟩⟩ := by
    calc (Fifo.pushAll (⟨fun _ => 0, ⟨30, 0, 0⟩⟩ : Fifo ℚ) (xs.take 29)).1
        = ⟨(Fifo.pushAll (⟨fun _ => 0, ⟨30, 0, 0⟩⟩ : Fifo ℚ) (xs.take 29)).1.buffers,
            (Fifo.pushAll (⟨fun _ => 0, ⟨30, 0, 0⟩⟩ : Fifo ℚ) (xs.take 29)).1.fifo⟩ := rfl
      _ = ⟨Pbuf, ⟨30, 0, 29⟩⟩ := by rw [hPbuf, hfifo1]
  have hfull2 : Fifo.pushAll
      (Fifo.pushAll (⟨fun _ => 0, ⟨30, 0, 0⟩⟩ : Fifo ℚ) (xs.take 29)).1 (xs.drop 29)
      = ((Fifo.pushAll (⟨fun _ => 0, ⟨30, 0, 0⟩⟩ : Fifo ℚ) (xs.take 29)).1,
          List.replicate (xs.drop 29).length false) := by
    rw [heta, Fifo.pushAll_full]
  have hmain : Fifo.pushAll (⟨fun _ => 0, ⟨30, 0, 0⟩⟩ : Fifo ℚ) xs
      = ((Fifo.pushAll (⟨fun _ => 0, ⟨30, 0, 0⟩⟩ : Fifo ℚ) (xs.take 29)).1,
          List.replicate 29 true ++ List.replicate 2 false) := by
    conv_lhs => rw [← hsplit]
    rw [Fifo.pushAll_append, hfull2, hres1, hB]
  rw [hmain, heta]
  obtain ⟨hplen, hQeta, hpget⟩ := Fifo.pullN_ok 29 Pbuf 0 29 (by omega) (by omega)
  simp only [Nat.zero_add] at hQeta hpget
  have hlast : (Fifo.pullN (⟨Pbuf, ⟨30, 29, 29⟩⟩ : Fifo ℚ) 1).2 = [none] := by
    simp [Fifo.pullN, Fifo.pull_mk_empty Pbuf 29 (by omega)]
  have h30 : Fifo.pullN (⟨Pbuf, ⟨30, 0, 29⟩⟩ : Fifo ℚ) 30
      = ((Fifo.pullN ((Fifo.pullN (⟨Pbuf, ⟨30, 0, 29⟩⟩ : Fifo ℚ) 29).1) 1).1,
          (Fifo.pullN (⟨Pbuf, ⟨30, 0, 29⟩⟩ : Fifo ℚ) 29).2
            ++ (Fifo.pullN ((Fifo.pullN (⟨Pbuf, ⟨30, 0, 29⟩⟩ : Fifo ℚ) 29).1) 1).2) :=
    Fifo.pullN_add 29 (⟨Pbuf, ⟨30, 0, 29⟩⟩ : Fifo ℚ) 1
  refine ⟨?_, ?_, ?_, ?_⟩
  · show List.replicate 29 true ++ List.replicate 2 false
        = List.replicate 29 true ++ [false, false]
    decide
  · rw [h30, hQeta]
    simp [hlast, hplen]
  · intro j hj
    rw [h30, hQeta, hlast,
      List.getD_append _ _ _ _ (by rw [hplen]; exact hj), hpget j hj,
      hslots1 j hj]
    simp [List.get_eq_getElem, List.getElem_take]
  · rw [h30, hQeta, hlast,
      List.getD_append_right _ _ _ _ (by rw [hplen]), hplen]
    rfl

/-- Witness for claim C5: the 31 concrete items 0, 1, ..., 30. -/
theorem claim5_overflow_witness :
    ((Fifo.pushAll (Fifo.init (0 : ℚ)) (List.map (fun n : ℕ => (n : ℚ)) (List.range 31))).2
      = List.replicate 29 true ++ [false, false]) ∧
    ((Fifo.pullN
        (Fifo.pushAll (Fifo.init (0 : ℚ)) (List.map (fun n : ℕ => (n : ℚ)) (List.range 31))).1
        30).2.length = 30) ∧
    ((Fifo.pullN
        (Fifo.pushAll (Fifo.init (0 : ℚ)) (List.map (fun n : ℕ => (n : ℚ)) (List.range 31))).1
        30).2.getD 7 none
      = some ((List.map (fun n : ℕ => (n : ℚ)) (List.range 31)).get ⟨7, by rw [List.length_map, List.length_range]; norm_num⟩)) ∧
    ((Fifo.pullN
        (Fifo.pushAll (Fifo.init (0 : ℚ)) (List.map (fun n : ℕ => (n : ℚ)) (List.range 31))).1
        30).2.getD 29 none = none) := by
  have h := claim5_overflow_amended (List.map (fun n : ℕ => (n : ℚ)) (List.range 31)) (by rw [List.length_map, List.length_range])
  exact ⟨h.1, h.2.1, h.2.2.1 7 (by norm_num), h.2.2.2⟩

/-- The conditional multiply of the paint loop equals multiplying by a
neutral-or-response factor. -/
theorem mul_ite_bypassed (b : Bool) (m r : ℚ) :
    (if !b then m * r else m) = m * (if b then 1 else r) := by
  cases b <;> simp

/-- Product over the bypass-filtered stage list equals the product of
neutral-or-response factors over all stages. -/
theorem filter_map_prod (l : List (FilterStage α)) (f : α → ℚ) :
    ((l.filter (fun s => !s.bypassed)).map (fun s => f s.coefficients)).prod
      = (l.map (fun s => if s.bypassed then 1 else f s.coefficients)).prod := by
  induction l with
  | nil => rfl
  | cons s l ih =>
    by_cases hb : s.bypassed
    · simp [List.filter_cons, hb, ih]
    · simp [List.filter_cons, hb, ih]

/-- Claim C6: each plotted response-curve value is the decibel conversion of
the product of the magnitude responses of exactly the non-bypassed stages
(peak, low-cut 0..3, high-cut 0..3) at the frequency of that sample point;
bypassed stages contribute nothing to the product. -/
theorem claim6_response_curve_product (toDb : ℚ → ℚ) (resp : α → ℚ → ℚ)
    (chain : DisplayChain α) (freqOf : ℕ → ℚ) (w i : ℕ) (hi : i < w) :
    (paintMags toDb resp chain freqOf w).getD i 0
      = toDb (activeStageResponses resp chain (freqOf i)).prod := by
  have h1 : (paintMags toDb resp chain freqOf w).getD i 0
      = toDb (paintMagnitude resp chain (freqOf i)) := by
    unfold paintMags
    rw [List.getD_eq_getElem _ _ (by simpa using hi), List.getElem_map, List.getElem_range]
  rw [h1]
  congr 1
  unfold activeStageResponses
  rw [filter_map_prod (stageList chain) (fun c => resp c (freqOf i))]
  simp only [stageList, List.map_cons, List.map_nil, List.prod_cons, List.prod_nil]
  simp only [paintMagnitude, mul_ite_bypassed]
  ring

/-- Witness for claim C6 at a concrete chain, response function and pixel. -/
theorem claim6_response_curve_witness :
    (paintMags id (fun c f => c * f)
        (DisplayChain.mk (fun _ => ⟨false, 2⟩) false 3 (fun _ => ⟨true, 5⟩))
        (fun i => (i : ℚ)) 3).getD 1 0
      = id (activeStageResponses (fun c f => c * f)
        (DisplayChain.mk (fun _ => ⟨false, 2⟩) false 3 (fun _ => ⟨true, 5⟩))
        ((fun i => (i : ℚ)) 1)).prod :=
  claim6_response_curve_product id (fun c f => c * f)
    (DisplayChain.mk (fun _ => ⟨false, 2⟩) false 3 (fun _ => ⟨true, 5⟩))
    (fun i => (i : ℚ)) 3 1 (by norm_num)

/-- Running the flag machine over an event trace decomposes over
concatenation. -/
theorem flagRun_append (as : List RCEvent) : ∀ (f : Bool) (bs : List RCEvent),
    flagRun f (as ++ bs)
      = ((flagRun (flagRun f as).1 bs).1, (flagRun f as).2 ++ (flagRun (flagRun f as).1 bs).2) := by
  induction as with
  | nil => intro f bs; simp [flagRun]
  | cons a as ih =>
    intro f bs
    simp only [List.cons_append, flagRun, List.append_eq, ih (flagStep f a).1 bs]

/-- Any non-empty burst of change notifications leaves the flag set; no
notification refreshes the chain. -/
theorem flagRun_notify (m : ℕ) : ∀ (f : Bool),
    flagRun f (List.replicate m RCEvent.notifyChange)
      = ((if m = 0 then f else true), List.replicate m false) := by
  induction m with
  | zero => intro f; rfl
  | succ m ih =>
    intro f
    simp [List.replicate_succ, flagRun, flagStep, ih true, List.replicate_succ]

/-- Timer ticks on a clear flag never refresh and leave the flag clear. -/
theorem flagRun_ticks_clear (j : ℕ) :
    flagRun false (List.replicate j RCEvent.timerTick)
      = (false, List.replicate j false) := by
  induction j with
  | zero => rfl
  | succ j ih => simp [List.replicate_succ, flagRun, flagStep, ih]

/-- Claim C8: a tick refreshes the display chain exactly when the flag was
observed true, and the compare-and-set clears the flag in the same step; for
a burst of `m ≥ 1` notifications followed by ticks, exactly one tick (the
first one) performs the refresh, and a tick with the flag false never
refreshes. -/
theorem claim8_flag_protocol (flag : Bool) (m j : ℕ) (hm : 1 ≤ m) :
    ((flagStep flag RCEvent.timerTick).2 = flag) ∧
    ((flagStep flag RCEvent.timerTick).1 = false) ∧
    ((flagRun false (List.replicate m RCEvent.notifyChange
        ++ RCEvent.timerTick :: List.replicate j RCEvent.timerTick)).2.count true = 1) ∧
    ((flagRun false (List.replicate m RCEvent.notifyChange
        ++ RCEvent.timerTick :: List.replicate j RCEvent.timerTick)).2.getD m false = true) := by
  have hres : (flagRun false (List.replicate m RCEvent.notifyChange
      ++ RCEvent.timerTick :: List.replicate j RCEvent.timerTick)).2
      = List.replicate m false ++ true :: List.replicate j false := by
    rw [flagRun_append, flagRun_notify m false]
    have hm0 : ¬ (m = 0) := by omega
    simp only [hm0, if_false]
    show (List.replicate m false
        ++ (flagRun true (RCEvent.timerTick :: List.replicate j RCEvent.timerTick)).2) = _
    simp [flagRun, flagStep, flagRun_ticks_clear j]
  refine ⟨by cases flag <;> rfl, by cases flag <;> rfl, ?_, ?_⟩
  · rw [hres]
    simp [List.count_append, List.count_cons, List.count_replicate]
  · rw [hres, List.getD_append_right _ _ _ _ (by simp)]
    simp

/-- Witness for claim C8: a burst of two notifications and three trailing
ticks. -/
theorem claim8_flag_protocol_witness :
    ((flagStep true RCEvent.timerTick).2 = true) ∧
    ((flagStep true RCEvent.timerTick).1 = false) ∧
    ((flagRun false (List.replicate 2 RCEvent.notifyChange
        ++ RCEvent.timerTick :: List.replicate 3 RCEvent.timerTick)).2.count true = 1) ∧
    ((flagRun false (List.replicate 2 RCEvent.notifyChange
        ++ RCEvent.timerTick :: List.replicate 3 RCEvent.timerTick)).2.getD 2 false = true) :=
  claim8_flag_protocol true 2 3 (by norm_num)

/-- After enough all-zero blocks the rolling mono buffer holds only zeros. -/
theorem monoShiftIter_zero (size : ℕ) : ∀ (k : ℕ) (mono : List ℚ), size ≤ mono.length →
    monoShiftIter (List.replicate size 0) k mono
      = mono.drop (k * size)
        ++ List.replicate (mono.length - (mono.length - k * size)) 0 := by
  intro k
  induction k with
  | zero =>
    intro mono hsz
    simp [monoShiftIter]
  | succ k ih =>
    intro mono hsz
    have hstep : monoShift mono (List.replicate size (0 : ℚ))
        = mono.drop size ++ List.replicate size 0 := by
      simp [monoShift]
    have hlen : (mono.drop size ++ List.replicate size (0 : ℚ)).length = mono.length := by
      simp
      omega
    show monoShiftIter (List.replicate size 0) k (monoShift mono (List.replicate size 0))
        = _
    rw [hstep, ih (mono.drop size ++ List.replicate size 0) (by rw [hlen]; omega)]
    rw [List.drop_append_eq_append_drop, List.drop_drop, List.drop_replicate, hlen]
    rw [List.append_assoc, ← List.replicate_add]
    have e0 : k * size + size = (k + 1) * size := by ring
    have hdl : (mono.drop size).length = mono.length - size := by simp
    rw [hdl]
    congr 2
    · omega
    · omega

/-- Claim C7: with the decibel floor at -48, once the rolling mono buffer has
been fed enough all-zero blocks to contain only zeros, every bin of the
produced magnitude frame is at (hence at or below) the -48 floor.  The
magnitude transform is any function sending pointwise-zero data to zero
magnitudes (true of the JUCE FFT by linearity). -/
theorem claim7_fft_silence (fftMag : (ℕ → ℚ) → ℕ → ℚ) (window : ℕ → ℚ)
    (log10 : ℚ → ℚ) (fftSize size k : ℕ) (mono : List ℚ)
    (hmagzero : ∀ g : ℕ → ℚ, (∀ i, g i = 0) → ∀ b, fftMag g b = 0)
    (hmlen : mono.length = fftSize) (hsz : size ≤ fftSize)
    (hk : fftSize ≤ k * size) :
    ∀ x ∈ produceFFTDataForRendering fftMag window log10 fftSize
        (monoShiftIter (List.replicate size 0) k mono) (-48), x ≤ -48 := by
  have hmono : monoShiftIter (List.replicate size 0) k mono
      = List.replicate fftSize 0 := by
    rw [monoShiftIter_zero size k mono (by omega), hmlen]
    rw [List.drop_eq_nil_of_le (by omega)]
    rw [show fftSize - (fftSize - k * size) = fftSize by omega]
    simp
  rw [hmono]
  intro x hx
  unfold produceFFTDataForRendering at hx
  simp only [List.mem_map, List.mem_range] at hx
  obtain ⟨i, hi, hxeq⟩ := hx
  have hgz : ∀ j, (List.replicate fftSize (0 : ℚ)).getD j 0 * window j = 0 := by
    intro j
    have hz : (List.replicate fftSize (0 : ℚ)).getD j 0 = 0 := by
      by_cases hj : j < fftSize
      · rw [List.getD_eq_getElem _ _ (by simpa using hj)]
        simp
      · rw [List.getD_eq_default _ _ (by simpa using hj)]
    rw [hz, zero_mul]
  rw [hmagzero _ hgz i] at hxeq
  rw [← hxeq]
  unfold gainToDecibels
  simp

/-- Witness for claim C7: a 4-sample mono buffer, two zero blocks of two
samples, a transform that samples its input. -/
theorem claim7_fft_silence_witness :
    (produceFFTDataForRendering (fun g b => g b) (fun _ => 1) id 4
      (monoShiftIter (List.replicate 2 0) 2 [1, 2, 3, 4]) (-48)).getD 0 0 ≤ -48 := by
  have h := claim7_fft_silence (fun g b => g b) (fun _ => 1) id 4 2 2 [1, 2, 3, 4]
    (fun g hg b => hg b) (by norm_num) (by norm_num) (by norm_num)
  have hlist : produceFFTDataForRendering (fun g b => g b) (fun _ => 1) id 4
      (monoShiftIter (List.replicate 2 0) 2 [1, 2, 3, 4]) (-48) = [-48, -48] := by
    norm_num [produceFFTDataForRendering, gainToDecibels, monoShiftIter, monoShift,
      List.range_succ]
  refine h _ ?_
  rw [hlist]
  simp

/-- Every point produced by the guarded loop of the path generator has a
finite mapped value. -/
theorem filterMap_guard_all (l : List ℕ) (g : ℕ → ℚ × FVal) :
    ((l.filterMap (fun b => if (g b).2.isFinite then some (g b) else none)).all
      (fun pt => pt.2.isFinite)) = true := by
  induction l with
  | nil => rfl
  | cons b l ih =>
    by_cases hb : (g b).2.isFinite = true
    · simp [List.filterMap_cons, hb, ih]
    · simp only [Bool.not_eq_true] at hb
      simp [List.filterMap_cons, hb, ih]

/-- Claim C9, counterexample to the original statement: when the first bin
maps to a non-finite value, `generatePath` still adds it — the subpath is
started at the unguarded mapped first value, so the produced path contains a
non-finite coordinate. -/
theorem claim9_counterexample :
    FVal.nonfinite ∈ (generatePath (fun _ => 0)
      [FVal.nonfinite, FVal.fin 1, FVal.fin 2, FVal.fin 3] 8 100 0 (-48)).map Prod.snd := by
  decide

/-- Claim C9 (amended): every loop point (bins 1, 3, 5, ... of the stepped
walk) whose mapped value is non-finite is skipped, so the tail of the
generated path contains only finite values; the first bin is the exception —
its mapped value starts the subpath unconditionally, guarded only by a debug
assertion. -/
theorem claim9_path_skips_nonfinite_amended (binX : ℕ → ℚ) (renderData : List FVal)
    (fftSize : ℕ) (bottom top negativeInfinity : ℚ) :
    ((generatePath binX renderData fftSize bottom top negativeInfinity).tail.all
      (fun pt => pt.2.isFinite) = true) ∧
    ((generatePath binX renderData fftSize bottom top negativeInfinity).head?
      = some (0, jmapF (renderData.getD 0 FVal.nonfinite) negativeInfinity 0 bottom top)) := by
  constructor
  · show ((List.range' 1 (fftSize / 2 / 2) 2).filterMap _).all _ = true
    exact filterMap_guard_all (List.range' 1 (fftSize / 2 / 2) 2)
      (fun b => (binX b, jmapF (renderData.getD b FVal.nonfinite) negativeInfinity 0 bottom top))
  · rfl

end SimpleEQ
